import Mathlib

/-!
Verification development for the chowkidaar secret store.

The Go sources are shallowly embedded: byte strings (Go `[]byte` and Go
strings, which are byte strings) are `List Nat`, filesystem paths are lists
of components (`List String`) relative to the store root, and the
filesystem and the password cache are explicit state records threaded
through the operations.  Randomness (salts, nonces, session tokens) is
passed in as explicit arguments; disk-write outcomes for the cache are an
explicit condition record.

The external cryptographic library primitives (Argon2id, AES-256-GCM,
SHA-256) are not part of the repository; they are modelled as executable
deterministic functions that satisfy exactly the functional contract the
repository code relies on: key derivation is a deterministic function of
the secret material and the salt; `gcmSeal key nonce pt` produces
`pt.length + 16` bytes (ciphertext body plus 16-byte tag, as Go's
`cipher.AEAD.Seal` with a GCM instance does); `gcmOpen` rejects any
ciphertext shorter than the 16-byte tag (as Go's `gcm.Open` does) and
otherwise succeeds exactly when the tag recomputed from the recovered
plaintext matches, returning the sealed plaintext for the sealing key and
nonce.
-/

namespace Chowkidaar

abbrev Bytes := List Nat

abbrev FsPath := List String

deriving instance DecidableEq for Except

/-- Sum of the bytes of a byte string; used by the modelled primitives below
to make them depend on every input. -/
def byteSum (b : Bytes) : Nat := b.foldl (· + ·) 0

/-- Model of `argon2.IDKey` (golang.org/x/crypto/argon2) at the fixed
parameters used by crypto.go (time 3, memory 64 MiB, threads 4, keyLen 32):
an executable deterministic function from the combined secret material and
the salt to a 32-byte key.  The development relies only on determinism and
on the output depending on both inputs. -/
def argon2IDKey (combined salt : Bytes) : Bytes :=
  (List.range 32).map
    (fun i => (byteSum combined * 2 + combined.length * 17 + byteSum salt * 11 + i * 13) % 256)

/-- Keystream seed of the modelled AES-256-GCM cipher, a deterministic
function of key and nonce. -/
def streamSeed (key nonce : Bytes) : Nat :=
  byteSum key * 23 + key.length * 41 + byteSum nonce * 19 + 7

/-- Byte-wise masking of the modelled cipher: XOR with a keystream.  XOR with
the same keystream is its own inverse, giving the cipher its decryption. -/
def maskBytes (s : Nat) : Nat → Bytes → Bytes
  | _, [] => []
  | i, b :: bs => (b ^^^ ((s + i) % 256)) :: maskBytes s (i + 1) bs

/-- 16-byte authentication tag of the modelled AES-256-GCM cipher, a
deterministic function of key, nonce and ciphertext body (as in GCM, the tag
is computed over the ciphertext). -/
def gcmTag (key nonce body : Bytes) : Bytes :=
  (List.range 16).map
    (fun i =>
      (byteSum key * 3 + key.length * 43 + byteSum nonce * 5 + byteSum body * 7 +
          body.length * 29 + i) % 256)

/-- Model of Go `gcm.Seal nil nonce pt nil`: masked plaintext followed by the
16-byte tag over the masked body, so the output is `pt.length + 16` bytes
long. -/
def gcmSeal (key nonce pt : Bytes) : Bytes :=
  maskBytes (streamSeed key nonce) 0 pt ++
    gcmTag key nonce (maskBytes (streamSeed key nonce) 0 pt)

/-- Model of Go `gcm.Open nil nonce ct nil`: fails when the ciphertext is
shorter than the 16-byte tag (exactly as Go's gcm.Open does); otherwise
splits body and tag, checks the tag over the body and unmasks the body. -/
def gcmOpen (key nonce ct : Bytes) : Option Bytes :=
  if ct.length < 16 then none
  else
    let body := ct.take (ct.length - 16)
    let tg := ct.drop (ct.length - 16)
    if gcmTag key nonce body = tg then some (maskBytes (streamSeed key nonce) 0 body)
    else none

/-- Model of SHA-256: an executable deterministic function to 32 bytes. -/
def sha256Model (b : Bytes) : Bytes :=
  (List.range 32).map (fun i => (byteSum b * 29 + b.length * 31 + i * 3) % 256)

/-- The bytes of a string constant. -/
def strBytes (s : String) : Bytes := s.data.map Char.toNat

namespace Crypto

/-- Error cases of crypto.go Encrypt/Decrypt/getCombinedKey. -/
inductive Err where
  | malformedBlob
  | keyfileNotFound
  | invalidKeyfileSize
  | authFailure
  deriving DecidableEq, Repr

/-- Cryptographic work steps performed by Decrypt, recorded in order. -/
inductive Step where
  | deriveKey
  | aeadOpen
  deriving DecidableEq, Repr

/-- crypto.go getCombinedKey: reads the keyfile (here: the keyfile's current
contents, `none` when the file does not exist), requires it to be exactly 32
bytes, and returns password bytes followed by keyfile bytes. -/
def getCombinedKey (keyfile : Option Bytes) (masterPassword : Bytes) : Except Err Bytes :=
  match keyfile with
  | none => .error .keyfileNotFound
  | some kf =>
    if kf.length ≠ 32 then .error .invalidKeyfileSize
    else .ok (masterPassword ++ kf)

/-- crypto.go Decrypt, instrumented with the list of cryptographic steps
(key derivation, AEAD open) it performs: rejects blobs shorter than
saltSize + nonceSize = 44 bytes before anything else, then splits
salt `[0,32)`, nonce `[32,44)`, ciphertext `[44,..)`, derives the key and
opens the AEAD seal. -/
def DecryptT (keyfile : Option Bytes) (encryptedData masterPassword : Bytes) :
    Except Err Bytes × List Step :=
  if encryptedData.length < 32 + 12 then (.error .malformedBlob, [])
  else
    match getCombinedKey keyfile masterPassword with
    | .error e => (.error e, [])
    | .ok combinedKey =>
      let salt := encryptedData.take 32
      let nonce := (encryptedData.drop 32).take 12
      let ciphertext := encryptedData.drop 44
      let key := argon2IDKey combinedKey salt
      match gcmOpen key nonce ciphertext with
      | none => (.error .authFailure, [.deriveKey, .aeadOpen])
      | some plaintext => (.ok plaintext, [.deriveKey, .aeadOpen])

/-- crypto.go Decrypt (result component). -/
def Decrypt (keyfile : Option Bytes) (encryptedData masterPassword : Bytes) : Except Err Bytes :=
  (DecryptT keyfile encryptedData masterPassword).1

/-- crypto.go Encrypt: fresh salt and nonce are passed in as the random
inputs; derives the key from the combined password-and-keyfile material and
returns salt followed by nonce followed by the AEAD sealing of the data. -/
def Encrypt (keyfile : Option Bytes) (data masterPassword salt nonce : Bytes) :
    Except Err Bytes :=
  match getCombinedKey keyfile masterPassword with
  | .error e => .error e
  | .ok combinedKey =>
    let key := argon2IDKey combinedKey salt
    .ok (salt ++ nonce ++ gcmSeal key nonce data)

end Crypto

namespace PasswordCache

/-- cache.go CacheEntry: the on-disk mirror record (password.cache). -/
structure CacheEntry where
  encryptedPassword : Bytes
  nonce : Bytes
  expiration : Nat
  sessionID : Bytes
  deriving DecidableEq, Repr

/-- The in-memory fields of cache.go PasswordCache. -/
structure CacheMem where
  cachedPassword : Bytes
  expiration : Nat
  sessionID : Bytes
  cacheTimeout : Nat
  deriving DecidableEq, Repr

/-- The cache's on-disk artifacts: the mirror file (parsed) and the bare
session-token file. -/
structure CacheDisk where
  mirror : Option CacheEntry
  session : Option Bytes
  deriving DecidableEq, Repr

/-- The full cache state: in-memory fields plus on-disk artifacts. -/
structure CacheState where
  mem : CacheMem
  disk : CacheDisk
  deriving DecidableEq, Repr

/-- Outcome of each disk write performed by cache.go Set: creating the cache
directory, writing the encrypted mirror, writing the session file. -/
structure DiskCond where
  mkdirOk : Bool
  writeMirrorOk : Bool
  writeSessionOk : Bool
  deriving DecidableEq, Repr

/-- Disk I/O failure surfaced by cache.go Set. -/
inductive CacheErr where
  | ioError
  deriving DecidableEq, Repr

/-- One lower-case hex digit (byte value of its ASCII character). -/
def hexDigit (n : Nat) : Nat := if n < 10 then 48 + n else 87 + n

/-- Model of Go hex.EncodeToString, as bytes of the resulting string. -/
def hexEncode (b : Bytes) : Bytes :=
  (b.map (fun x => [hexDigit (x / 16 % 16), hexDigit (x % 16)])).flatten

/-- The fixed domain string mixed into the cache key. -/
def cacheKeyInfo : Bytes := strBytes "chowkidaar-cache-key"

/-- cache.go generateCacheKey: sha256 of sessionID followed by the fixed
string "chowkidaar-cache-key". -/
def generateCacheKey (sessionID : Bytes) : Bytes :=
  sha256Model (sessionID ++ cacheKeyInfo)

/-- cache.go saveToDisk: the CacheEntry written to password.cache, sealing
the password under the key generated from the current session ID, with the
current expiration and session ID stored in the entry. -/
def saveToDisk (mem : CacheMem) (password nonce : Bytes) : CacheEntry :=
  { encryptedPassword := gcmSeal (generateCacheKey mem.sessionID) nonce password
    nonce := nonce
    expiration := mem.expiration
    sessionID := mem.sessionID }

/-- cache.go loadFromDisk: a missing mirror is a miss; an expired mirror is
deleted and is a miss; otherwise the session ID and expiration are taken
over from the entry, the key is regenerated from the entry's own session ID
and the password is decrypted; decryption failure deletes the mirror and is
a miss.  (A mirror that fails to parse is likewise deleted and is a miss;
the model's mirror field holds already-parsed entries.) -/
def loadFromDisk (mem : CacheMem) (disk : CacheDisk) (now : Nat) :
    Option Bytes × CacheMem × CacheDisk :=
  match disk.mirror with
  | none => (none, mem, disk)
  | some entry =>
    if entry.expiration < now then
      (none, mem, { disk with mirror := none })
    else
      let mem1 := { mem with sessionID := entry.sessionID, expiration := entry.expiration }
      match gcmOpen (generateCacheKey entry.sessionID) entry.nonce entry.encryptedPassword with
      | none => (none, mem1, { disk with mirror := none })
      | some password => (some password, mem1, disk)

/-- cache.go Get: the in-memory password when it is non-empty and unexpired,
otherwise the result of loadFromDisk (which, on a hit, also refreshes the
in-memory password). -/
def Get (st : CacheState) (now : Nat) : Option Bytes × CacheState :=
  if st.mem.cachedPassword ≠ [] ∧ now < st.mem.expiration then
    (some st.mem.cachedPassword, st)
  else
    match loadFromDisk st.mem st.disk now with
    | (some password, mem1, disk1) =>
      (some password, { mem := { mem1 with cachedPassword := password }, disk := disk1 })
    | (none, mem1, disk1) => (none, { mem := mem1, disk := disk1 })

/-- cache.go Set: generates the session ID from the fresh random bytes,
assigns the in-memory password, expiration and session ID, then creates the
cache directory, writes the encrypted mirror, and writes the session file,
returning the first disk error encountered (with the in-memory assignments
already performed). -/
def Set (st : CacheState) (now : Nat) (password sessionBytes nonce : Bytes) (c : DiskCond) :
    Except CacheErr Unit × CacheState :=
  let sid := hexEncode sessionBytes
  let mem1 : CacheMem :=
    { st.mem with sessionID := sid, cachedPassword := password,
                  expiration := now + st.mem.cacheTimeout }
  if c.mkdirOk = false then (.error .ioError, { st with mem := mem1 })
  else
    let entry := saveToDisk mem1 password nonce
    if c.writeMirrorOk = false then (.error .ioError, { st with mem := mem1 })
    else
      let disk1 : CacheDisk := { st.disk with mirror := some entry }
      if c.writeSessionOk = false then (.error .ioError, { mem := mem1, disk := disk1 })
      else (.ok (), { mem := mem1, disk := { disk1 with session := some sid } })

end PasswordCache

/-- crypto.go CachePassword: feeds a validated master password into the
password cache; it is exactly the cache's Set and returns Set's result to
its caller. -/
def Crypto.CachePassword (st : PasswordCache.CacheState) (now : Nat)
    (password sessionBytes nonce : Bytes) (c : PasswordCache.DiskCond) :
    Except PasswordCache.CacheErr Unit × PasswordCache.CacheState :=
  PasswordCache.Set st now password sessionBytes nonce c

namespace Store

/-- The store's filesystem relative to the store root: regular files with
contents, and the set of existing directories (the root itself is implicit
and always exists; `[]` never names a removable directory). -/
structure FS where
  files : List (FsPath × Bytes)
  dirs : List FsPath
  deriving DecidableEq, Repr

/-- Error cases of the store engine operations. -/
inductive StoreErr where
  | incorrectMasterPassword
  | alreadyExists
  | notFound
  | encryptionFailed (e : Crypto.Err)
  deriving DecidableEq, Repr

/-- Store state: the filesystem under the store root plus the password
cache state. -/
structure StoreSt where
  fs : FS
  cache : PasswordCache.CacheState
  deriving DecidableEq, Repr

/-- The random inputs and disk-write outcomes consumed by one cache Set
performed inside a store operation. -/
structure CacheIn where
  sessionBytes : Bytes
  nonce : Bytes
  cond : PasswordCache.DiskCond
  deriving DecidableEq, Repr

/-- Whether a file name carries the secret suffix ".enc" (model of Go
strings.HasSuffix at the character level). -/
def isEncName (s : String) : Bool := ".enc".data.isSuffixOf s.data

/-- store.go getPasswordFilePath's suffix handling on the final component. -/
def encName (s : String) : String := if isEncName s then s else s ++ ".enc"

/-- store.go getPasswordFilePath: the secret's path with ".enc" appended to
the final component when missing. -/
def encPath : FsPath → FsPath
  | [] => [".enc"]
  | [x] => [encName x]
  | x :: y :: rest => x :: encPath (y :: rest)

/-- Whether a path names a secret blob file. -/
def isEncFilePath (p : FsPath) : Bool :=
  match p.getLast? with
  | some s => isEncName s
  | none => false

/-- Componentwise lexicographic order on paths; full component paths compare
in exactly the order filepath.Walk's lexical depth-first traversal visits
the files. -/
def pathLt : FsPath → FsPath → Bool
  | [], [] => false
  | [], _ :: _ => true
  | _ :: _, [] => false
  | a :: as, b :: bs => if a = b then pathLt as bs else decide (a < b)

/-- store.go validatePasswordIfNeeded's filepath.Walk with SkipAll: the
first ".enc" file in lexical walk order, i.e. the componentwise-lexicographic
least ".enc" path. -/
def firstEncFile (fs : FS) : Option (FsPath × Bytes) :=
  match fs.files.filter (fun e => isEncFilePath e.1) with
  | [] => none
  | e :: rest => some (rest.foldl (fun best x => if pathLt x.1 best.1 then x else best) e)

/-- Reading a file: the stored contents, when present. -/
def lookupFile (fs : FS) (p : FsPath) : Option Bytes :=
  (fs.files.find? (fun e => e.1 = p)).map (fun e => e.2)

/-- os.MkdirAll relative to the store root: ensures every ancestor of the
requested directory (and the directory itself) exists. -/
def mkdirAll (ds : List FsPath) (d : FsPath) : List FsPath :=
  (List.range d.length).foldl
    (fun acc n =>
      let p := d.take (n + 1)
      if p ∈ acc then acc else acc ++ [p])
    ds

/-- store.go validatePasswordIfNeeded: when at least one ".enc" blob exists,
the first one in walk order must decrypt under the supplied password; any
decryption error becomes the incorrect-master-password error and nothing is
written; on success the password is fed into the cache. -/
def validatePasswordIfNeeded (keyfile : Option Bytes) (st : StoreSt) (masterPassword : Bytes)
    (ci : CacheIn) (now : Nat) : Except StoreErr StoreSt :=
  match firstEncFile st.fs with
  | none => .ok st
  | some (_, blob) =>
    match Crypto.Decrypt keyfile blob masterPassword with
    | .error _ => .error .incorrectMasterPassword
    | .ok _ =>
      .ok { st with
              cache := (Crypto.CachePassword st.cache now masterPassword
                          ci.sessionBytes ci.nonce ci.cond).2 }

/-- store.go Insert: validate the password first, fail when the target
already exists, create the directory, encrypt, write the blob, then feed
the password into the cache (whose result Insert discards).  `ci1` is
consumed by the cache Set inside validation, `ci2` by the final one. -/
def Insert (keyfile : Option Bytes) (st : StoreSt) (name : FsPath)
    (password masterPassword salt nonce : Bytes) (ci1 ci2 : CacheIn) (now : Nat) :
    Except StoreErr Unit × StoreSt :=
  match validatePasswordIfNeeded keyfile st masterPassword ci1 now with
  | .error e => (.error e, st)
  | .ok st1 =>
    let fp := encPath name
    if (lookupFile st1.fs fp).isSome then (.error .alreadyExists, st1)
    else
      let dirs1 := mkdirAll st1.fs.dirs fp.dropLast
      match Crypto.Encrypt keyfile password masterPassword salt nonce with
      | .error e => (.error (.encryptionFailed e), { st1 with fs := { st1.fs with dirs := dirs1 } })
      | .ok blob =>
        let fs1 : FS := { files := st1.fs.files ++ [(fp, blob)], dirs := dirs1 }
        let cache1 := (Crypto.CachePassword st1.cache now masterPassword
                         ci2.sessionBytes ci2.nonce ci2.cond).2
        (.ok (), { fs := fs1, cache := cache1 })

/-- Whether `c` is an immediate child path of directory `d`. -/
def isChildOf (c d : FsPath) : Bool := decide (c ≠ []) && decide (c.dropLast = d)

/-- Whether os.ReadDir of `d` would list no entries: no file and no
directory is an immediate child of `d`. -/
def dirEmptyB (fls : List (FsPath × Bytes)) (ds : List FsPath) (d : FsPath) : Bool :=
  fls.all (fun f => !(isChildOf f.1 d)) && ds.all (fun x => !(isChildOf x d))

/-- store.go cleanupEmptyDirs, walking the directory chain from the deepest
directory towards the root; the second list argument is the reversed
component path of the directory under consideration (so the recursion is
structural).  Stops at the store root (empty path), on a directory that does
not exist (ReadDir error), and on a non-empty directory; otherwise removes
the directory and continues with its parent. -/
def cleanupRev (fls : List (FsPath × Bytes)) : List FsPath → List String → List FsPath
  | ds, [] => ds
  | ds, x :: rest =>
    let d := (x :: rest).reverse
    if d ∈ ds then
      if dirEmptyB fls ds d then cleanupRev fls (ds.filter (fun y => y ≠ d)) rest
      else ds
    else ds

/-- store.go cleanupEmptyDirs on a directory path. -/
def cleanupEmptyDirs (fls : List (FsPath × Bytes)) (ds : List FsPath) (d : FsPath) :
    List FsPath :=
  cleanupRev fls ds d.reverse

/-- store.go Remove: NotFound when the blob file is absent; otherwise
deletes the file and prunes now-empty parent directories up to (not
including) the store root. -/
def Remove (st : StoreSt) (name : FsPath) : Except StoreErr Unit × StoreSt :=
  let fp := encPath name
  match lookupFile st.fs fp with
  | none => (.error .notFound, st)
  | some _ =>
    let fls1 := st.fs.files.filter (fun e => e.1 ≠ fp)
    let dirs1 := cleanupEmptyDirs fls1 st.fs.dirs fp.dropLast
    (.ok (), { st with fs := { files := fls1, dirs := dirs1 } })

/-- A directory set is closed under nonempty ancestors (every nonempty
`take` of a directory path is itself a directory).  Real stores satisfy
this because directories are only created by MkdirAll. -/
def prefixClosed (ds : List FsPath) : Prop :=
  ∀ d ∈ ds, ∀ n ≤ d.length, d.take n ≠ [] → d.take n ∈ ds

end Store

/-- Concrete store used to instantiate the wrong-credential scenario: a single
secret "p" encrypted under master credential [10] with a 32-byte keyfile. -/
def c2WitnessStore : Store.StoreSt :=
  ⟨⟨[(["p.enc"],
      (Crypto.Encrypt (some (List.replicate 32 7)) [7] [10]
        (List.replicate 32 1) (List.replicate 12 2)).toOption.getD [])], []⟩,
   ⟨⟨[], 0, [], 0⟩, ⟨none, none⟩⟩⟩

/-! ## Generic lemmas about the modelled primitives -/

theorem maskBytes_length (s i : Nat) (b : Bytes) :
    (maskBytes s i b).length = b.length := by
  induction b generalizing i with
  | nil => rfl
  | cons x xs ih => simp [maskBytes, ih]

theorem maskBytes_maskBytes (s i : Nat) (b : Bytes) :
    maskBytes s i (maskBytes s i b) = b := by
  induction b generalizing i with
  | nil => rfl
  | cons x xs ih =>
    simp [maskBytes, ih, Nat.xor_assoc, Nat.xor_self, Nat.xor_zero]

theorem gcmTag_length (key nonce pt : Bytes) : (gcmTag key nonce pt).length = 16 := by
  simp [gcmTag]

theorem take_length_append {α : Type} (a b : List α) : (a ++ b).take a.length = a := by
  induction a with
  | nil => rfl
  | cons x xs ih => simp [ih]

theorem drop_length_append {α : Type} (a b : List α) : (a ++ b).drop a.length = b := by
  induction a with
  | nil => rfl
  | cons x xs ih => simp [ih]

theorem take_of_length_eq_append {α : Type} {a : List α} (n : Nat) (h : a.length = n)
    (b : List α) : (a ++ b).take n = a := by
  subst h; exact take_length_append a b

theorem drop_of_length_eq_append {α : Type} {a : List α} (n : Nat) (h : a.length = n)
    (b : List α) : (a ++ b).drop n = b := by
  subst h; exact drop_length_append a b

theorem gcmSeal_length (key nonce pt : Bytes) :
    (gcmSeal key nonce pt).length = pt.length + 16 := by
  simp [gcmSeal, maskBytes_length, gcmTag_length]

theorem gcmOpen_gcmSeal (key nonce pt : Bytes) :
    gcmOpen key nonce (gcmSeal key nonce pt) = some pt := by
  have hm : (maskBytes (streamSeed key nonce) 0 pt).length = pt.length :=
    maskBytes_length _ _ _
  have hlen : (gcmSeal key nonce pt).length = pt.length + 16 := gcmSeal_length _ _ _
  have htake : (gcmSeal key nonce pt).take ((gcmSeal key nonce pt).length - 16)
      = maskBytes (streamSeed key nonce) 0 pt := by
    rw [hlen, Nat.add_sub_cancel, gcmSeal, ← hm, take_length_append]
  have hdrop : (gcmSeal key nonce pt).drop ((gcmSeal key nonce pt).length - 16)
      = gcmTag key nonce (maskBytes (streamSeed key nonce) 0 pt) := by
    rw [hlen, Nat.add_sub_cancel, gcmSeal, ← hm, drop_length_append]
  unfold gcmOpen
  rw [if_neg (by omega)]
  simp only [htake, hdrop, maskBytes_maskBytes]
  simp

theorem getCombinedKey_ne_malformed (keyfile : Option Bytes) (m : Bytes) :
    Crypto.getCombinedKey keyfile m ≠ .error .malformedBlob := by
  cases keyfile with
  | none => simp [Crypto.getCombinedKey]
  | some kf =>
    by_cases h : kf.length = 32 <;> simp [Crypto.getCombinedKey, h]

theorem getCombinedKey_some (k m : Bytes) (hk : k.length = 32) :
    Crypto.getCombinedKey (some k) m = .ok (m ++ k) := by
  simp [Crypto.getCombinedKey, hk]

/-! ## Claim theorems: cryptographic layer -/

/-- C1: for every plaintext, master credential, 32-byte keyfile, fresh salt and
nonce, decrypting the blob produced by Encrypt with the same credential and the
unchanged keyfile returns the original plaintext. -/
theorem C1_decrypt_encrypt_roundtrip
    (k data masterPassword salt nonce blob : Bytes)
    (hk : k.length = 32) (hs : salt.length = 32) (hn : nonce.length = 12)
    (henc : Crypto.Encrypt (some k) data masterPassword salt nonce = .ok blob) :
    Crypto.Decrypt (some k) blob masterPassword = .ok data := by
  have hck := getCombinedKey_some k masterPassword hk
  have hb : blob
      = salt ++ nonce ++ gcmSeal (argon2IDKey (masterPassword ++ k) salt) nonce data := by
    have h := henc
    unfold Crypto.Encrypt at h
    rw [hck] at h
    simp only [Except.ok.injEq] at h
    exact h.symm
  have hsal : blob.take 32 = salt := by
    rw [hb, List.append_assoc, take_of_length_eq_append 32 hs]
  have hdrop32 : blob.drop 32
      = nonce ++ gcmSeal (argon2IDKey (masterPassword ++ k) salt) nonce data := by
    rw [hb, List.append_assoc, drop_of_length_eq_append 32 hs]
  have hnon : (blob.drop 32).take 12 = nonce := by
    rw [hdrop32, take_of_length_eq_append 12 hn]
  have hct : blob.drop 44
      = gcmSeal (argon2IDKey (masterPassword ++ k) salt) nonce data := by
    rw [hb, drop_of_length_eq_append 44 (by simp [hs, hn])]
  have hlenb : 44 ≤ blob.length := by
    rw [hb]
    simp only [List.length_append, hs, hn]
    omega
  unfold Crypto.Decrypt Crypto.DecryptT
  rw [if_neg (by omega), hck]
  simp only [hsal, hnon, hct, gcmOpen_gcmSeal]

/-- C1 witness: the round trip evaluated at a concrete keyfile, plaintext,
credential, salt and nonce. -/
theorem C1_roundtrip_witness :
    Crypto.Decrypt (some (List.replicate 32 7))
      ((Crypto.Encrypt (some (List.replicate 32 7)) [10, 20] [3]
          (List.replicate 32 1) (List.replicate 12 2)).toOption.getD []) [3]
      = .ok [10, 20] :=
  C1_decrypt_encrypt_roundtrip (List.replicate 32 7) [10, 20] [3]
    (List.replicate 32 1) (List.replicate 12 2) _
    (by decide) (by decide) (by decide) rfl

/-- C3: a blob shorter than 44 bytes is rejected as malformed with an empty
cryptographic step trace (no key derivation, no AEAD open), for every keyfile
state and every credential; a blob of length at least 44 never produces the
malformed-blob error. -/
theorem C3_short_blob_malformed (keyfile : Option Bytes) (b masterPassword : Bytes) :
    (b.length < 44 →
      Crypto.DecryptT keyfile b masterPassword = (.error .malformedBlob, [])) ∧
    (44 ≤ b.length →
      (Crypto.DecryptT keyfile b masterPassword).1 ≠ .error .malformedBlob) := by
  constructor
  · intro h
    unfold Crypto.DecryptT
    rw [if_pos (by omega)]
  · intro h
    unfold Crypto.DecryptT
    rw [if_neg (by omega)]
    cases hck : Crypto.getCombinedKey keyfile masterPassword with
    | error e =>
      have hne := getCombinedKey_ne_malformed keyfile masterPassword
      rw [hck] at hne
      simpa using hne
    | ok ck =>
      dsimp only
      split <;> simp

/-- C3 witness: a 1-byte blob is malformed with empty trace; a 44-byte blob is
not reported malformed. -/
theorem C3_witness :
    Crypto.DecryptT none [0] [] = (.error .malformedBlob, []) ∧
    (Crypto.DecryptT none (List.replicate 44 0) []).1 ≠ .error .malformedBlob :=
  ⟨(C3_short_blob_malformed none [0] []).1 (by decide),
   (C3_short_blob_malformed none (List.replicate 44 0) []).2 (by decide)⟩

/-- C5: two Encrypt calls with the same plaintext, credential and keyfile but a
different random salt or a different random nonce produce different blobs: the
fresh salt and nonce are embedded verbatim at fixed offsets of the output. -/
theorem C5_encrypt_nondeterministic
    (k data masterPassword s1 n1 s2 n2 : Bytes)
    (hk : k.length = 32) (hs1 : s1.length = 32) (hn1 : n1.length = 12)
    (hs2 : s2.length = 32) (hn2 : n2.length = 12)
    (hne : s1 ≠ s2 ∨ n1 ≠ n2) :
    Crypto.Encrypt (some k) data masterPassword s1 n1 ≠
      Crypto.Encrypt (some k) data masterPassword s2 n2 := by
  have hck := getCombinedKey_some k masterPassword hk
  intro h
  unfold Crypto.Encrypt at h
  rw [hck] at h
  simp only [Except.ok.injEq] at h
  have h1 := congrArg (List.take 32) h
  rw [List.append_assoc, List.append_assoc, take_of_length_eq_append 32 hs1,
    take_of_length_eq_append 32 hs2] at h1
  have h2 := congrArg (List.drop 32) h
  rw [List.append_assoc, List.append_assoc, drop_of_length_eq_append 32 hs1,
    drop_of_length_eq_append 32 hs2] at h2
  have h3 := congrArg (List.take 12) h2
  rw [take_of_length_eq_append 12 hn1, take_of_length_eq_append 12 hn2] at h3
  rcases hne with hne | hne
  · exact hne h1
  · exact hne h3

/-- C5 witness: concrete distinct salts give distinct blobs. -/
theorem C5_witness :
    Crypto.Encrypt (some (List.replicate 32 7)) [1] [2]
        (List.replicate 32 3) (List.replicate 12 4) ≠
      Crypto.Encrypt (some (List.replicate 32 7)) [1] [2]
        (List.replicate 32 5) (List.replicate 12 4) :=
  C5_encrypt_nondeterministic _ _ _ _ _ _ _ (by decide) (by decide) (by decide)
    (by decide) (by decide) (Or.inl (by decide))

/-- C10: a blob of length between 44 and 59 (so its ciphertext section is
shorter than the 16-byte GCM tag) is not reported malformed; with the keyfile
present, Decrypt always fails at the AEAD open with the authentication error
and never returns plaintext. -/
theorem C10_short_ciphertext_auth_failure
    (k b masterPassword : Bytes) (hk : k.length = 32)
    (hlo : 44 ≤ b.length) (hhi : b.length ≤ 59) :
    Crypto.Decrypt (some k) b masterPassword = .error .authFailure := by
  have hck := getCombinedKey_some k masterPassword hk
  have hct : (b.drop 44).length < 16 := by
    rw [List.length_drop]; omega
  unfold Crypto.Decrypt Crypto.DecryptT
  rw [if_neg (by omega), hck]
  simp only [gcmOpen, if_pos hct]

/-- C10 witness: a 50-byte blob fails with the authentication error. -/
theorem C10_witness :
    Crypto.Decrypt (some (List.replicate 32 0)) (List.replicate 50 0) []
      = .error .authFailure :=
  C10_short_ciphertext_auth_failure _ _ _ (by decide) (by decide) (by decide)

/-! ## Claim theorems: password cache -/

theorem Set_ok_spec (st : PasswordCache.CacheState) (now : Nat)
    (password sessionBytes nonce : Bytes) :
    PasswordCache.Set st now password sessionBytes nonce ⟨true, true, true⟩
      = (.ok (),
         ⟨{ st.mem with
              sessionID := PasswordCache.hexEncode sessionBytes
              cachedPassword := password
              expiration := now + st.mem.cacheTimeout },
          { mirror := some (PasswordCache.saveToDisk
              { st.mem with
                  sessionID := PasswordCache.hexEncode sessionBytes
                  cachedPassword := password
                  expiration := now + st.mem.cacheTimeout } password nonce)
            session := some (PasswordCache.hexEncode sessionBytes) }⟩) := by
  simp [PasswordCache.Set]

theorem Get_expired_mirror (mem : PasswordCache.CacheMem) (disk : PasswordCache.CacheDisk)
    (entry : PasswordCache.CacheEntry) (now : Nat)
    (hmirror : disk.mirror = some entry)
    (hmem : ¬(mem.cachedPassword ≠ [] ∧ now < mem.expiration))
    (hexp : entry.expiration < now) :
    PasswordCache.Get ⟨mem, disk⟩ now = (none, ⟨mem, { disk with mirror := none }⟩) := by
  unfold PasswordCache.Get PasswordCache.loadFromDisk
  rw [if_neg hmem]
  simp only [hmirror]
  rw [if_pos hexp]

/-- C4: after a successful Set, once the current time is strictly past the
stored expiration (with no intervening Set), Get returns none; Get falls back
to the on-disk mirror, finds the mirror's expiration passed, deletes the
mirror file and returns none. -/
theorem C4_cache_expiration
    (st st' : PasswordCache.CacheState) (now0 now1 : Nat)
    (password sessionBytes nonce : Bytes)
    (hset : PasswordCache.Set st now0 password sessionBytes nonce ⟨true, true, true⟩
      = (.ok (), st'))
    (hlate : st'.mem.expiration < now1) :
    PasswordCache.Get st' now1
      = (none, { st' with disk := { st'.disk with mirror := none } }) := by
  rw [Set_ok_spec] at hset
  have hst : st'
      = ⟨{ st.mem with
             sessionID := PasswordCache.hexEncode sessionBytes
             cachedPassword := password
             expiration := now0 + st.mem.cacheTimeout },
         { mirror := some (PasswordCache.saveToDisk
             { st.mem with
                 sessionID := PasswordCache.hexEncode sessionBytes
                 cachedPassword := password
                 expiration := now0 + st.mem.cacheTimeout } password nonce)
           session := some (PasswordCache.hexEncode sessionBytes) }⟩ := by
    have h := congrArg Prod.snd hset
    simpa using h.symm
  subst hst
  have hl : now0 + st.mem.cacheTimeout < now1 := by simpa using hlate
  refine Get_expired_mirror _ _ _ now1 rfl ?_ ?_
  · rintro ⟨-, h⟩
    simp only at h
    omega
  · simpa [PasswordCache.saveToDisk] using hl

/-- C4 witness: a concrete Set at time 0 with timeout 10, read back at time 11,
misses and deletes the on-disk mirror. -/
theorem C4_witness :
    PasswordCache.Get
        (PasswordCache.Set ⟨⟨[], 0, [], 10⟩, ⟨none, none⟩⟩ 0 [1] [2] [3]
          ⟨true, true, true⟩).2 11
      = (none,
         { (PasswordCache.Set ⟨⟨[], 0, [], 10⟩, ⟨none, none⟩⟩ 0 [1] [2] [3]
              ⟨true, true, true⟩).2 with
             disk := { (PasswordCache.Set ⟨⟨[], 0, [], 10⟩, ⟨none, none⟩⟩ 0 [1] [2] [3]
                          ⟨true, true, true⟩).2.disk with mirror := none } }) :=
  C4_cache_expiration _ _ 0 11 [1] [2] [3] rfl (by decide)

/-- C6: every disk I/O error during Set — creating the cache directory, writing
the encrypted mirror, or writing the session file — is returned to Set's
caller; CachePassword, the wrapper through which every engine operation feeds
a credential into the cache, returns Set's result unchanged. -/
theorem C6_set_propagates_disk_errors
    (st : PasswordCache.CacheState) (now : Nat)
    (password sessionBytes nonce : Bytes) (c : PasswordCache.DiskCond)
    (hfail : c.mkdirOk = false ∨ c.writeMirrorOk = false ∨ c.writeSessionOk = false) :
    (Crypto.CachePassword st now password sessionBytes nonce c).1 = .error .ioError := by
  obtain ⟨m, w, s⟩ := c
  cases m <;> cases w <;> cases s <;>
    simp_all [Crypto.CachePassword, PasswordCache.Set]

/-- C6 witness: a failing session-file write is returned by CachePassword. -/
theorem C6_witness :
    (Crypto.CachePassword ⟨⟨[], 0, [], 5⟩, ⟨none, none⟩⟩ 0 [1] [2] [3]
        ⟨true, true, false⟩).1 = .error .ioError :=
  C6_set_propagates_disk_errors _ _ _ _ _ _ (Or.inr (Or.inr rfl))

/-- C8: the on-disk mirror is self-contained: loadFromDisk's result is
independent of all in-memory state, and a well-formed unexpired mirror written
by saveToDisk decrypts back to the cached credential using only data in the
entry itself — the AES-GCM key is sha256 of the entry's own cleartext session
token followed by the fixed string "chowkidaar-cache-key". -/
theorem C8_mirror_self_contained :
    (∀ (mem1 mem2 : PasswordCache.CacheMem) (disk : PasswordCache.CacheDisk) (now : Nat),
      (PasswordCache.loadFromDisk mem1 disk now).1
        = (PasswordCache.loadFromDisk mem2 disk now).1) ∧
    (∀ (mem mem0 : PasswordCache.CacheMem) (password nonce : Bytes)
        (disk : PasswordCache.CacheDisk) (now : Nat),
      disk.mirror = some (PasswordCache.saveToDisk mem0 password nonce) →
      now ≤ mem0.expiration →
      (PasswordCache.loadFromDisk mem disk now).1 = some password) := by
  constructor
  · intro mem1 mem2 disk now
    unfold PasswordCache.loadFromDisk
    cases hm : disk.mirror with
    | none => rfl
    | some entry =>
      by_cases h : entry.expiration < now
      · simp [h]
      · simp only [h, if_false]
        cases hg : gcmOpen (PasswordCache.generateCacheKey entry.sessionID)
            entry.nonce entry.encryptedPassword <;> simp [hg]
  · intro mem mem0 password nonce disk now hmirror hexp
    unfold PasswordCache.loadFromDisk
    rw [hmirror]
    dsimp only [PasswordCache.saveToDisk]
    rw [if_neg (by omega), gcmOpen_gcmSeal]

/-- C8 witness: a concrete mirror decrypts to the stored credential under a
completely different in-memory state. -/
theorem C8_witness :
    (PasswordCache.loadFromDisk ⟨[9], 0, [9], 0⟩
        ⟨some (PasswordCache.saveToDisk ⟨[], 7, [4], 0⟩ [5] [6]), none⟩ 3).1 = some [5] :=
  C8_mirror_self_contained.2 ⟨[9], 0, [9], 0⟩ ⟨[], 7, [4], 0⟩ [5] [6] _ 3 rfl (by decide)

/-- C9 as stated fails at the empty credential: with a failing cache-directory
creation, Set on the empty credential returns a disk I/O error and the time
stays strictly before the stored expiration, yet a subsequent Get returns
none — Get treats an empty in-memory credential as absent and the mirror was
never written. -/
theorem C9_empty_credential_counterexample :
    (PasswordCache.Set ⟨⟨[], 0, [], 300⟩, ⟨none, none⟩⟩ 0 [] [1] [2]
        ⟨false, true, true⟩).1 = .error .ioError ∧
    1 < (PasswordCache.Set ⟨⟨[], 0, [], 300⟩, ⟨none, none⟩⟩ 0 [] [1] [2]
        ⟨false, true, true⟩).2.mem.expiration ∧
    (PasswordCache.Get
        (PasswordCache.Set ⟨⟨[], 0, [], 300⟩, ⟨none, none⟩⟩ 0 [] [1] [2]
          ⟨false, true, true⟩).2 1).1 = none := by
  decide

/-- C9 (amended): Set assigns the in-memory credential, session token and
expiration before attempting any disk write — they are assigned even when Set
returns a disk I/O error — and, for a non-empty credential, after Set returns
a disk I/O error a Get in the same process before the stored expiration still
returns the credential rather than none.  (The restriction to non-empty
credentials is forced: Get treats an empty in-memory credential as absent.) -/
theorem C9_set_not_atomic_amended
    (st : PasswordCache.CacheState) (now0 now1 : Nat)
    (password sessionBytes nonce : Bytes) (c : PasswordCache.DiskCond) :
    ((PasswordCache.Set st now0 password sessionBytes nonce c).2.mem.cachedPassword
        = password ∧
      (PasswordCache.Set st now0 password sessionBytes nonce c).2.mem.sessionID
        = PasswordCache.hexEncode sessionBytes ∧
      (PasswordCache.Set st now0 password sessionBytes nonce c).2.mem.expiration
        = now0 + st.mem.cacheTimeout) ∧
    (password ≠ [] →
      (PasswordCache.Set st now0 password sessionBytes nonce c).1 = .error .ioError →
      now1 < now0 + st.mem.cacheTimeout →
      (PasswordCache.Get
          (PasswordCache.Set st now0 password sessionBytes nonce c).2 now1).1
        = some password) := by
  obtain ⟨m, w, s⟩ := c
  constructor
  · cases m <;> cases w <;> cases s <;> simp [PasswordCache.Set]
  · intro hpw herr hlt
    cases m <;> cases w <;> cases s <;>
      simp_all [PasswordCache.Set, PasswordCache.Get]

/-- C9 amended witness: a non-empty credential survives a failed Set in memory
and is returned by Get before the expiration. -/
theorem C9_amended_witness :
    (PasswordCache.Get
        (PasswordCache.Set ⟨⟨[], 0, [], 300⟩, ⟨none, none⟩⟩ 0 [8] [1] [2]
          ⟨false, true, true⟩).2 1).1 = some [8] :=
  (C9_set_not_atomic_amended ⟨⟨[], 0, [], 300⟩, ⟨none, none⟩⟩ 0 1 [8] [1] [2]
      ⟨false, true, true⟩).2 (by decide) rfl (by decide)

/-! ## Lemmas about directory cleanup (store.go cleanupEmptyDirs) -/

theorem take_append_of_le_len {α : Type} :
    ∀ (a b : List α) (n : Nat), n ≤ a.length → (a ++ b).take n = a.take n
  | _, _, 0, _ => by simp
  | [], _, n + 1, h => by simp at h
  | x :: xs, b, n + 1, h => by
    simp only [List.cons_append, List.take_succ_cons]
    rw [take_append_of_le_len xs b n (by simpa using h)]

theorem take_ge_length {α : Type} :
    ∀ (l : List α) (n : Nat), l.length ≤ n → l.take n = l
  | [], _, _ => by simp
  | x :: xs, 0, h => by simp at h
  | x :: xs, n + 1, h => by
    simp only [List.take_succ_cons]
    rw [take_ge_length xs n (by simpa using h)]

theorem exists_take_snoc {α : Type} (a : List α) (y : α) (x : List α)
    (h : ∃ n, x = a.take n) : ∃ m, x = (a ++ [y]).take m := by
  obtain ⟨n, rfl⟩ := h
  rcases le_or_lt n a.length with h1 | h1
  · exact ⟨n, (take_append_of_le_len a [y] n h1).symm⟩
  · refine ⟨a.length, ?_⟩
    rw [take_ge_length a n h1.le]
    exact (take_length_append a [y]).symm

theorem take_take_le {α : Type} :
    ∀ (l : List α) (m n : Nat), m ≤ n → (l.take n).take m = l.take m
  | _, 0, _, _ => by simp
  | [], _ + 1, _, _ => by simp
  | _ :: _, _ + 1, 0, h => by exact absurd h (by omega)
  | x :: xs, m + 1, n + 1, h => by
    simp only [List.take_succ_cons]
    rw [take_take_le xs m n (by omega)]

theorem dropLast_take_succ {α : Type} (d : List α) (n : Nat) (hn : n < d.length) :
    (d.take (n + 1)).dropLast = d.take n := by
  rw [List.dropLast_eq_take]
  have hl : (d.take (n + 1)).length = n + 1 := by
    rw [List.length_take]; omega
  rw [hl, Nat.add_sub_cancel, take_take_le d n (n + 1) (by omega)]

theorem mem_cleanupRev (fls : List (FsPath × Bytes)) :
    ∀ (rev : List String) (ds : List FsPath) (x : FsPath),
      x ∈ Store.cleanupRev fls ds rev → x ∈ ds := by
  intro rev
  induction rev with
  | nil => intro ds x hx; exact hx
  | cons y rest ih =>
    intro ds x hx
    unfold Store.cleanupRev at hx
    dsimp only at hx
    by_cases h1 : (y :: rest).reverse ∈ ds
    · rw [if_pos h1] at hx
      by_cases h2 : Store.dirEmptyB fls ds ((y :: rest).reverse) = true
      · rw [if_pos h2] at hx
        exact (List.mem_filter.mp (ih _ x hx)).1
      · rw [if_neg h2] at hx; exact hx
    · rw [if_neg h1] at hx; exact hx

theorem nil_mem_cleanupRev (fls : List (FsPath × Bytes)) :
    ∀ (rev : List String) (ds : List FsPath),
      [] ∈ ds → [] ∈ Store.cleanupRev fls ds rev := by
  intro rev
  induction rev with
  | nil => intro ds h; exact h
  | cons y rest ih =>
    intro ds h
    unfold Store.cleanupRev
    dsimp only
    by_cases h1 : (y :: rest).reverse ∈ ds
    · rw [if_pos h1]
      by_cases h2 : Store.dirEmptyB fls ds ((y :: rest).reverse) = true
      · rw [if_pos h2]
        refine ih _ (List.mem_filter.mpr ⟨h, ?_⟩)
        simp
      · rw [if_neg h2]; exact h
    · rw [if_neg h1]; exact h

theorem dirEmptyB_mono (fls : List (FsPath × Bytes)) (ds1 ds2 : List FsPath) (d : FsPath)
    (hsub : ∀ x, x ∈ ds2 → x ∈ ds1)
    (h : Store.dirEmptyB fls ds1 d = true) : Store.dirEmptyB fls ds2 d = true := by
  unfold Store.dirEmptyB at h ⊢
  simp only [Bool.and_eq_true, List.all_eq_true] at h ⊢
  exact ⟨h.1, fun x hx => h.2 x (hsub x hx)⟩

theorem cleanupRev_sound (fls : List (FsPath × Bytes)) :
    ∀ (rev : List String) (ds : List FsPath) (x : FsPath),
      x ∈ ds → x ∉ Store.cleanupRev fls ds rev →
      x ≠ [] ∧ (∃ n, x = rev.reverse.take n) ∧
        Store.dirEmptyB fls (Store.cleanupRev fls ds rev) x = true := by
  intro rev
  induction rev with
  | nil => intro ds x hx hnx; exact absurd hx hnx
  | cons y rest ih =>
    intro ds x hx hnx
    unfold Store.cleanupRev at hnx ⊢
    dsimp only at hnx ⊢
    by_cases h1 : (y :: rest).reverse ∈ ds
    · rw [if_pos h1] at hnx ⊢
      by_cases h2 : Store.dirEmptyB fls ds ((y :: rest).reverse) = true
      · rw [if_pos h2] at hnx ⊢
        by_cases hxd : x = (y :: rest).reverse
        · subst hxd
          refine ⟨by simp, ⟨(y :: rest).reverse.length, (List.take_length _).symm⟩, ?_⟩
          refine dirEmptyB_mono fls ds _ _ (fun z hz => ?_) h2
          exact (List.mem_filter.mp (mem_cleanupRev fls rest _ z hz)).1
        · have hx' : x ∈ ds.filter (fun y' => y' ≠ (y :: rest).reverse) :=
            List.mem_filter.mpr ⟨hx, by simpa using hxd⟩
          obtain ⟨hne, hpre, hemp⟩ := ih _ x hx' hnx
          refine ⟨hne, ?_, hemp⟩
          have h3 := exists_take_snoc rest.reverse y x hpre
          rwa [← List.reverse_cons] at h3
      · rw [if_neg h2] at hnx; exact absurd hx hnx
    · rw [if_neg h1] at hnx; exact absurd hx hnx

theorem prefixClosed_take (ds : List FsPath) (hpc : Store.prefixClosed ds)
    (d : FsPath) (hd : d ∈ ds) (n : Nat) (hne : d.take n ≠ []) : d.take n ∈ ds := by
  rcases le_or_lt n d.length with h1 | h1
  · exact hpc d hd n h1 hne
  · rw [take_ge_length d n h1.le]
    exact hd

theorem dirEmptyB_false_of_proper (fls : List (FsPath × Bytes)) (ds : List FsPath)
    (hpc : Store.prefixClosed ds) (d : FsPath) (hd : d ∈ ds) (n : Nat)
    (hn : n < d.length) :
    Store.dirEmptyB fls ds (d.take n) = false := by
  have hlen1 : (d.take (n + 1)).length = n + 1 := by
    rw [List.length_take]; omega
  have hcne : d.take (n + 1) ≠ [] := by
    intro h0; rw [h0] at hlen1; simp at hlen1
  have hc : d.take (n + 1) ∈ ds := hpc d hd (n + 1) (by omega) hcne
  have hchild : Store.isChildOf (d.take (n + 1)) (d.take n) = true := by
    unfold Store.isChildOf
    simp only [Bool.and_eq_true, decide_eq_true_eq]
    exact ⟨hcne, dropLast_take_succ d n hn⟩
  unfold Store.dirEmptyB
  cases hB : ds.all (fun z => !(Store.isChildOf z (d.take n))) with
  | false => rw [Bool.and_false]
  | true =>
    exfalso
    have hz := List.all_eq_true.mp hB _ hc
    rw [hchild] at hz
    simp at hz

theorem prefixClosed_filter (fls : List (FsPath × Bytes)) (ds : List FsPath)
    (hpc : Store.prefixClosed ds) (d : FsPath)
    (hde : Store.dirEmptyB fls ds d = true) :
    Store.prefixClosed (ds.filter (fun y => y ≠ d)) := by
  intro x hxf n hn hne
  have hx := (List.mem_filter.mp hxf).1
  have hxd : x ≠ d := by
    have h2 := (List.mem_filter.mp hxf).2
    simpa using h2
  have hp : x.take n ∈ ds := hpc x hx n hn hne
  refine List.mem_filter.mpr ⟨hp, ?_⟩
  simp only [decide_eq_true_eq]
  intro hpd
  have hlt : n < x.length := by
    rcases le_or_lt x.length n with h1 | h1
    · rw [take_ge_length x n h1] at hpd
      exact absurd hpd hxd
    · exact h1
  have hfalse := dirEmptyB_false_of_proper fls ds hpc x hx n hlt
  rw [hpd] at hfalse
  rw [hfalse] at hde
  exact Bool.false_ne_true hde

theorem cleanupRev_complete (fls : List (FsPath × Bytes)) :
    ∀ (rev : List String) (ds : List FsPath),
      Store.prefixClosed ds →
      (rev = [] ∨ rev.reverse ∈ ds) →
      ∀ x, x ≠ [] → (∃ n, x = rev.reverse.take n) →
      x ∈ Store.cleanupRev fls ds rev →
      Store.dirEmptyB fls (Store.cleanupRev fls ds rev) x = false := by
  intro rev
  induction rev with
  | nil =>
    intro ds hpc hin x hx hpre hmem
    obtain ⟨n, rfl⟩ := hpre
    simp at hx
  | cons y rest ih =>
    intro ds hpc hin x hx hpre hmem
    have hdin : (y :: rest).reverse ∈ ds := by
      rcases hin with h | h
      · exact absurd h (by simp)
      · exact h
    unfold Store.cleanupRev at hmem ⊢
    dsimp only at hmem ⊢
    rw [if_pos hdin] at hmem ⊢
    by_cases he : Store.dirEmptyB fls ds ((y :: rest).reverse) = true
    · rw [if_pos he] at hmem ⊢
      have hxds' : x ∈ ds.filter (fun y' => y' ≠ (y :: rest).reverse) :=
        mem_cleanupRev fls rest _ x hmem
      have hxne : x ≠ (y :: rest).reverse := by
        have h2 := (List.mem_filter.mp hxds').2
        simpa using h2
      obtain ⟨n, hxn⟩ := hpre
      have hnlt : n < (y :: rest).reverse.length := by
        rcases le_or_lt (y :: rest).reverse.length n with h1 | h1
        · rw [take_ge_length _ n h1] at hxn
          exact absurd hxn hxne
        · exact h1
      have hble : n ≤ rest.reverse.length := by
        have hlr : (y :: rest).reverse.length = rest.reverse.length + 1 := by simp
        omega
      have hpre' : ∃ m, x = rest.reverse.take m :=
        ⟨n, by rw [hxn, List.reverse_cons]; exact take_append_of_le_len _ _ n hble⟩
      have hpc' := prefixClosed_filter fls ds hpc _ he
      have hin' : rest = [] ∨
          rest.reverse ∈ ds.filter (fun y' => y' ≠ (y :: rest).reverse) := by
        cases rest with
        | nil => exact Or.inl rfl
        | cons z zs =>
          refine Or.inr (List.mem_filter.mpr ⟨?_, ?_⟩)
          · have hrlen : (z :: zs).reverse.length ≤ (y :: z :: zs).reverse.length := by
              simp
            have heq : (y :: z :: zs).reverse.take ((z :: zs).reverse.length)
                = (z :: zs).reverse := by
              have hrw : (y :: z :: zs).reverse = (z :: zs).reverse ++ [y] :=
                List.reverse_cons y (z :: zs)
              rw [hrw]
              exact take_length_append _ _
            have hne2 : (y :: z :: zs).reverse.take ((z :: zs).reverse.length) ≠ [] := by
              rw [heq]; simp
            have hmem2 := hpc _ hdin ((z :: zs).reverse.length) hrlen hne2
            rwa [heq] at hmem2
          · simp only [decide_eq_true_eq]
            intro hcontra
            have hcl := congrArg List.length hcontra
            simp at hcl
      exact ih _ hpc' hin' x hx hpre' hmem
    · rw [if_neg he] at hmem ⊢
      obtain ⟨n, hxn⟩ := hpre
      by_cases hxd : x = (y :: rest).reverse
      · subst hxd
        simpa using he
      · have hlt : n < (y :: rest).reverse.length := by
          rcases le_or_lt (y :: rest).reverse.length n with h1 | h1
          · rw [take_ge_length _ n h1] at hxn
            exact absurd hxn hxd
          · exact h1
        have hfalse := dirEmptyB_false_of_proper fls ds hpc _ hdin n hlt
        rwa [← hxn] at hfalse

theorem find?_filter_self (fls : List (FsPath × Bytes)) (p : FsPath) :
    List.find? (fun e => e.1 = p) (fls.filter (fun e => e.1 ≠ p)) = none := by
  rw [List.find?_eq_none]
  intro e he
  have h2 := (List.mem_filter.mp he).2
  simp only [decide_eq_true_eq] at h2 ⊢
  exact h2

theorem find?_filter_ne (fls : List (FsPath × Bytes)) (p q : FsPath) (hne : q ≠ p) :
    List.find? (fun e => e.1 = q) (fls.filter (fun e => e.1 ≠ p))
      = List.find? (fun e => e.1 = q) fls := by
  induction fls with
  | nil => rfl
  | cons e rest ih =>
    by_cases h3 : e.1 = p
    · have h1 : e.1 ≠ q := by rw [h3]; exact hne.symm
      rw [List.filter_cons_of_neg (by simp [h3]), List.find?_cons_of_neg _ (by simp [h1]), ih]
    · rw [List.filter_cons_of_pos (by simp [h3])]
      by_cases h1 : e.1 = q
      · rw [List.find?_cons_of_pos _ (by simp [h1]), List.find?_cons_of_pos _ (by simp [h1])]
      · rw [List.find?_cons_of_neg _ (by simp [h1]), List.find?_cons_of_neg _ (by simp [h1]), ih]

/-! ## Claim theorems: store engine -/

/-- C2: on a store that already contains a secret blob, Insert with a
credential that fails to decrypt the validation blob (the first ".enc" file in
walk order) fails with the incorrect-master-credential error and returns the
entire store state — files, directories and cache — unchanged: the validation
runs before any write. -/
theorem C2_insert_wrong_credential_rejected
    (keyfile : Option Bytes) (st : Store.StoreSt) (name : FsPath)
    (password c2 salt nonce : Bytes) (ci1 ci2 : Store.CacheIn) (now : Nat)
    (q : FsPath) (blob : Bytes) (e : Crypto.Err)
    (hfirst : Store.firstEncFile st.fs = some (q, blob))
    (hfail : Crypto.Decrypt keyfile blob c2 = .error e) :
    Store.Insert keyfile st name password c2 salt nonce ci1 ci2 now
      = (.error .incorrectMasterPassword, st) := by
  unfold Store.Insert Store.validatePasswordIfNeeded
  rw [hfirst]
  dsimp only
  rw [hfail]

/-- C2 witness: inserting into the concrete one-secret store (encrypted under
credential [10]) with credential [11] fails with the
incorrect-master-credential error. -/
theorem C2_witness :
    (Store.Insert (some (List.replicate 32 7)) c2WitnessStore ["q"] [8] [11]
        (List.replicate 32 1) (List.replicate 12 2)
        ⟨[1], [2], ⟨true, true, true⟩⟩ ⟨[1], [2], ⟨true, true, true⟩⟩ 0).1
      = .error .incorrectMasterPassword :=
  congrArg Prod.fst
    (C2_insert_wrong_credential_rejected (some (List.replicate 32 7)) c2WitnessStore
      ["q"] [8] [11] (List.replicate 32 1) (List.replicate 12 2)
      ⟨[1], [2], ⟨true, true, true⟩⟩ ⟨[1], [2], ⟨true, true, true⟩⟩ 0
      ["p.enc"]
      ((Crypto.Encrypt (some (List.replicate 32 7)) [7] [10]
        (List.replicate 32 1) (List.replicate 12 2)).toOption.getD [])
      .authFailure (by decide) (by decide))

/-- C7: Remove fails with notFound when no blob file is stored under the name;
otherwise it deletes exactly the secret's file (all other files are
untouched), never removes the store root, removes only now-empty non-root
ancestor directories of the secret's parent chain (each removed directory is
empty in the resulting store), and — when the store's directory set is
closed under nonempty ancestors and contains the secret's parent — leaves no
empty non-root ancestor directory behind. -/
theorem C7_remove_semantics (st : Store.StoreSt) (name : FsPath) :
    (Store.lookupFile st.fs (Store.encPath name) = none →
      Store.Remove st name = (.error .notFound, st)) ∧
    (∀ b, Store.lookupFile st.fs (Store.encPath name) = some b →
      (Store.Remove st name).1 = .ok () ∧
      Store.lookupFile (Store.Remove st name).2.fs (Store.encPath name) = none ∧
      (∀ q, q ≠ Store.encPath name →
        Store.lookupFile (Store.Remove st name).2.fs q = Store.lookupFile st.fs q) ∧
      ([] ∈ st.fs.dirs → [] ∈ (Store.Remove st name).2.fs.dirs) ∧
      (∀ x, x ∈ st.fs.dirs → x ∉ (Store.Remove st name).2.fs.dirs →
        x ≠ [] ∧ (∃ n, x = (Store.encPath name).dropLast.take n) ∧
        Store.dirEmptyB (Store.Remove st name).2.fs.files
          (Store.Remove st name).2.fs.dirs x = true) ∧
      (Store.prefixClosed st.fs.dirs →
        ((Store.encPath name).dropLast = [] ∨
          (Store.encPath name).dropLast ∈ st.fs.dirs) →
        ∀ x, x ≠ [] → (∃ n, x = (Store.encPath name).dropLast.take n) →
        x ∈ (Store.Remove st name).2.fs.dirs →
        Store.dirEmptyB (Store.Remove st name).2.fs.files
          (Store.Remove st name).2.fs.dirs x = false)) := by
  constructor
  · intro hnone
    unfold Store.Remove
    dsimp only
    rw [hnone]
  · intro b hb
    have hrem : Store.Remove st name
        = (.ok (), { st with fs :=
            { files := st.fs.files.filter (fun e => e.1 ≠ Store.encPath name)
              dirs := Store.cleanupRev
                (st.fs.files.filter (fun e => e.1 ≠ Store.encPath name))
                st.fs.dirs (Store.encPath name).dropLast.reverse } }) := by
      unfold Store.Remove
      dsimp only
      rw [hb]
      rfl
    rw [hrem]
    dsimp only
    refine ⟨rfl, ?_, ?_, ?_, ?_, ?_⟩
    · unfold Store.lookupFile
      dsimp only
      rw [find?_filter_self]
      rfl
    · intro q hq
      unfold Store.lookupFile
      dsimp only
      rw [find?_filter_ne _ _ _ hq]
    · intro h
      exact nil_mem_cleanupRev _ _ _ h
    · intro x hx hnx
      obtain ⟨hne, ⟨n, hpre⟩, hemp⟩ :=
        cleanupRev_sound (st.fs.files.filter (fun e => e.1 ≠ Store.encPath name))
          ((Store.encPath name).dropLast.reverse) st.fs.dirs x hx hnx
      rw [List.reverse_reverse] at hpre
      exact ⟨hne, ⟨n, hpre⟩, hemp⟩
    · intro hpc hin x hxne hxpre hxmem
      have hin' : (Store.encPath name).dropLast.reverse = [] ∨
          (Store.encPath name).dropLast.reverse.reverse ∈ st.fs.dirs := by
        rcases hin with h | h
        · left; rw [h]; rfl
        · right; rwa [List.reverse_reverse]
      have hxpre' : ∃ n, x = (Store.encPath name).dropLast.reverse.reverse.take n := by
        obtain ⟨n, h⟩ := hxpre
        refine ⟨n, ?_⟩
        rwa [List.reverse_reverse]
      exact cleanupRev_complete _ _ _ hpc hin' x hxne hxpre' hxmem

/-- C7 witness: removing secret "a/b" from a store holding only that secret
deletes the file and prunes the now-empty directory "a". -/
theorem C7_witness :
    (Store.Remove ⟨⟨[(["a", "b.enc"], [1])], [["a"]]⟩, ⟨⟨[], 0, [], 0⟩, ⟨none, none⟩⟩⟩
        ["a", "b"]).1 = .ok () ∧
    Store.lookupFile
      (Store.Remove ⟨⟨[(["a", "b.enc"], [1])], [["a"]]⟩, ⟨⟨[], 0, [], 0⟩, ⟨none, none⟩⟩⟩
        ["a", "b"]).2.fs (Store.encPath ["a", "b"]) = none :=
  ⟨((C7_remove_semantics
      ⟨⟨[(["a", "b.enc"], [1])], [["a"]]⟩, ⟨⟨[], 0, [], 0⟩, ⟨none, none⟩⟩⟩
      ["a", "b"]).2 [1] (by decide)).1,
   ((C7_remove_semantics
      ⟨⟨[(["a", "b.enc"], [1])], [["a"]]⟩, ⟨⟨[], 0, [], 0⟩, ⟨none, none⟩⟩⟩
      ["a", "b"]).2 [1] (by decide)).2.1⟩

end Chowkidaar
